import Mathlib

/-!
# Verification of the `write-ahead-log` core

A shallow embedding of the repository's core files:

* `src/log-index-file.js` — the on-disk index (16-byte header followed by a
  packed array of 4-byte big-endian offsets), embedded at byte level;
* `src/write-ahead-log.js` — the WAL facade composing one log file and one
  index file.

Files are modelled as byte lists (`Bytes`); the random-access file
abstraction (`ranfile`, an external dependency) is embedded with the
contract given in the specification: `read ofs len` slices, `write ofs b`
splices (extending at end of file), `truncate n` keeps the first `n` bytes.
Stateful operations are pure state-passing functions returning the new
state paired with `Except Err α` so that errors raised after a partial
mutation (as in `recover`) keep the mutated state, exactly as a rejected
promise does in the source.
-/

/-- A byte string: a list of byte values (each `< 256` by construction). -/
abbrev Bytes := List Nat

/-- The random-access file abstraction (external dependency `ranfile`),
modelled as the byte content of one file. -/
structure RAFile where
  data : Bytes
deriving Repr, DecidableEq

namespace RAFile

/-- `file.size` — the file's length in bytes. -/
def size (f : RAFile) : Nat := f.data.length

/-- `file.read(ofs, len)` — the byte slice `[ofs, ofs+len)`. -/
def read (f : RAFile) (ofs len : Nat) : Bytes :=
  (f.data.drop ofs).take len

/-- `file.write(ofs, bytes)` — splice `bytes` in at `ofs`, zero-padding if
`ofs` lies past the current end of file, extending the file as needed. -/
def write (f : RAFile) (ofs : Nat) (bytes : Bytes) : RAFile :=
  ⟨f.data.take ofs ++ List.replicate (ofs - f.data.length) 0 ++ bytes
    ++ f.data.drop (ofs + bytes.length)⟩

/-- `file.write(ofs, buf, srcOfs, len)` — write `len` bytes of `buf`
starting at `srcOfs` into the file at `ofs`. -/
def writeFrom (f : RAFile) (ofs : Nat) (buf : Bytes) (srcOfs len : Nat) : RAFile :=
  f.write ofs ((buf.drop srcOfs).take len)

/-- `file.truncate(n)` — keep the first `n` bytes. -/
def truncate (f : RAFile) (n : Nat) : RAFile :=
  ⟨f.data.take n⟩

end RAFile

/-! ## Big-endian 32-bit integers (`writeInt32BE` / `readInt32BE`) -/

/-- Two's-complement image of an integer in `[0, 2^32)`. -/
def u32 (v : Int) : Nat := (v % 4294967296).toNat

/-- `Buffer.writeInt32BE` — the four big-endian bytes of `v`. -/
def encInt32 (v : Int) : Bytes :=
  [u32 v / 16777216 % 256, u32 v / 65536 % 256, u32 v / 256 % 256, u32 v % 256]

/-- `Buffer.readInt32BE` on the first four bytes of `b` (signed decode). -/
def decInt32 (b : Bytes) : Int :=
  let u : Nat := b.getD 0 0 * 16777216 + b.getD 1 0 * 65536
    + b.getD 2 0 * 256 + b.getD 3 0
  if u < 2147483648 then (u : Int) else (u : Int) - 4294967296

/-- `buf.readInt32BE(ofs)` — decode four bytes at byte offset `ofs`. -/
def readInt32At (b : Bytes) (ofs : Nat) : Int :=
  decInt32 ((b.drop ofs).take 4)

/-- In-place `writeInt32BE`-style splice of `bytes` into `buf` at `ofs`. -/
def spliceAt (buf : Bytes) (ofs : Nat) (bytes : Bytes) : Bytes :=
  buf.take ofs ++ bytes ++ buf.drop (ofs + bytes.length)

theorem encInt32_length (v : Int) : (encInt32 v).length = 4 := rfl

/-- Signed 32-bit round trip: decoding the four bytes written for `v`
recovers `v` whenever `v` fits in an `int32`. -/
theorem dec_enc (v : Int) (h1 : -2147483648 ≤ v) (h2 : v < 2147483648) :
    decInt32 (encInt32 v) = v := by
  unfold decInt32 encInt32 u32
  simp only [List.getD_cons_zero, List.getD_cons_succ]
  have hmod : v % 4294967296 = if 0 ≤ v then v else v + 4294967296 := by
    split <;> omega
  rw [hmod]
  split <;> rename_i hv
  · have hv' : (v.toNat : Int) = v := Int.toNat_of_nonneg hv
    split <;> omega
  · split <;> omega

/-! ## Errors

The source distinguishes `assert-plus` assertion failures from plain
`Error` rejections (the out-of-order commit protocol error and the invalid
marker error). -/

/-- An error raised by an operation: an `assert-plus` assertion failure or
a plain (protocol) `Error`. -/
inductive Err where
  | assertion (msg : String)
  | failure (msg : String)
deriving Repr, DecidableEq

instance instDecEqExcept {e a : Type} [DecidableEq e] [DecidableEq a] :
    DecidableEq (Except e a) := fun x y =>
  match x, y with
  | .ok u, .ok v =>
    if h : u = v then isTrue (h ▸ rfl) else isFalse (fun hx => h (Except.ok.inj hx))
  | .error u, .error v =>
    if h : u = v then isTrue (h ▸ rfl)
    else isFalse (fun hx => h (Except.error.inj hx))
  | .ok _, .error _ => isFalse (fun hx => Except.noConfusion hx)
  | .error _, .ok _ => isFalse (fun hx => Except.noConfusion hx)

/-- `true` iff the eventual resolved (did not reject). -/
def exceptOk {α : Type} : Except Err α → Bool
  | .ok _ => true
  | .error _ => false

/-! ## The log index file (`src/log-index-file.js`) -/

/-- `MARKER = 'IDX$'` as ASCII bytes. -/
def MARKER : Bytes := [0x49, 0x44, 0x58, 0x24]

def OFS_MARKER : Nat := 0
def OFS_BASEINDEX : Nat := 4
def OFS_HEAD : Nat := 8
def OFS_COMMIT : Nat := 12
def HLEN : Nat := 16
def SIZEOF_INT : Nat := 4
def DEF_COMMIT : Int := -1

/-- The index file: the underlying random-access file plus the cached
16-byte header (`this[$header]`, `none` when closed). -/
structure LogIndexFile where
  file : RAFile
  header : Option Bytes
deriving Repr, DecidableEq

/-- Record returned by `LogIndexFile.get`. -/
structure IdxRec where
  offset : Int
  length : Int
deriving Repr, DecidableEq

/-- Record emitted by `LogIndexFile.getRange`. -/
structure RangeRec where
  index : Int
  offset : Int
  length : Int
deriving Repr, DecidableEq

namespace LogIndexFile

/-- `get marker()` — the four marker bytes of the cached header. -/
def marker (idx : LogIndexFile) : Except Err Bytes :=
  match idx.header with
  | none => .error (.assertion "index must be open")
  | some hdr => .ok (hdr.take 4)

/-- `get baseIndex()`. -/
def baseIndex (idx : LogIndexFile) : Except Err Int :=
  match idx.header with
  | none => .error (.assertion "index must be open")
  | some hdr => .ok (readInt32At hdr OFS_BASEINDEX)

/-- `get head()` — the write head (next unused LSN). -/
def head (idx : LogIndexFile) : Except Err Int :=
  match idx.header with
  | none => .error (.assertion "index must be open")
  | some hdr => .ok (readInt32At hdr OFS_HEAD)

/-- `get commitHead()` — the commit head (may trail `head`). -/
def commitHead (idx : LogIndexFile) : Except Err Int :=
  match idx.header with
  | none => .error (.assertion "index must be open")
  | some hdr => .ok (readInt32At hdr OFS_COMMIT)

/-- `isCommitted(index)` — `index < this.commitHead`. -/
def isCommitted (idx : LogIndexFile) (index : Int) : Except Err Bool :=
  match idx.header with
  | none => .error (.assertion "index must be open")
  | some hdr => .ok (decide (index < readInt32At hdr OFS_COMMIT))

/-- `commit(index)` — ordered commit: below the expected LSN is an
idempotent success, above it a protocol error; at it the header is updated
and its four commit bytes are persisted at file offset 12. -/
def commit (idx : LogIndexFile) (index : Int) : LogIndexFile × Except Err Int :=
  match idx.header with
  | none => (idx, .error (.assertion "index must be open"))
  | some hdr =>
    let expected := readInt32At hdr OFS_COMMIT + 1
    if index < expected then (idx, .ok index)
    else if index ≠ expected then
      (idx, .error (.failure
        s!"Out of order commit; expected {expected} but received {index}."))
    else
      let hdr2 := spliceAt hdr OFS_COMMIT (encInt32 index)
      let file2 := idx.file.writeFrom OFS_COMMIT hdr2 OFS_COMMIT SIZEOF_INT
      (⟨file2, some hdr2⟩, .ok index)

/-- `offset(index)` — read the 4-byte offset slot for `index ≤ head`.
(The range assertion reads `this.head`, whose getter raises
`index must be open` first on a closed index.) -/
def offset (idx : LogIndexFile) (index : Int) : Except Err Int :=
  match idx.header with
  | none => .error (.assertion "index must be open")
  | some hdr =>
    if index ≤ readInt32At hdr OFS_HEAD then
      let base := readInt32At hdr OFS_BASEINDEX
      .ok (decInt32 (idx.file.read ((HLEN : Int) + (index - base) * 4).toNat SIZEOF_INT))
    else .error (.assertion "index out of range")

/-- `get(index)` — read slot `index` and the following sentinel slot,
returning the entry's byte offset and length. -/
def get (idx : LogIndexFile) (index : Int) : Except Err IdxRec :=
  match idx.header with
  | none => .error (.assertion "index must be open")
  | some hdr =>
    if index < readInt32At hdr OFS_HEAD then
      let base := readInt32At hdr OFS_BASEINDEX
      let data := idx.file.read ((HLEN : Int) + (index - base) * 4).toNat (2 * SIZEOF_INT)
      let o := decInt32 (data.take 4)
      .ok ⟨o, readInt32At data SIZEOF_INT - o⟩
    else .error (.assertion "index out of range")

/-- The record list built by `getRange`'s `while` loop from the
`(count + 1) * 4` bytes read. -/
def buildRange (data : Bytes) (index : Int) (count : Nat) : List RangeRec :=
  (List.range count).map (fun i =>
    let o := readInt32At data (i * SIZEOF_INT)
    ⟨index + i, o, readInt32At data ((i + 1) * SIZEOF_INT) - o⟩)

/-- `getRange(index, count)` — read `(count + 1) * 4` bytes from slot
`index` and emit `count` records. -/
def getRange (idx : LogIndexFile) (index count : Int) : Except Err (List RangeRec) :=
  match idx.header with
  | none => .error (.assertion "index must be open")
  | some hdr =>
    if index < readInt32At hdr OFS_HEAD then
      let limit := readInt32At hdr OFS_HEAD - index
      if count ≤ limit then
        let base := readInt32At hdr OFS_BASEINDEX
        let data := idx.file.read ((HLEN : Int) + (index - base) * 4).toNat
          ((count + 1) * 4).toNat
        .ok (buildRange data index count.toNat)
      else .error (.assertion "count puts index out of range")
    else .error (.assertion "index out of range")

/-- `truncate(from)` — a truncation strictly between the commit head and
the write head: persist the new head, then return the new effective
end-of-log offset. -/
def truncate (idx : LogIndexFile) (from_ : Int) : LogIndexFile × Except Err Int :=
  match idx.header with
  | none => (idx, .error (.assertion "index must be open"))
  | some hdr =>
    if from_ > readInt32At hdr OFS_COMMIT then
      if from_ < readInt32At hdr OFS_HEAD then
        let hdr2 := spliceAt hdr OFS_HEAD (encInt32 from_)
        let file2 := idx.file.writeFrom OFS_HEAD hdr2 OFS_HEAD SIZEOF_INT
        let idx2 : LogIndexFile := ⟨file2, some hdr2⟩
        if readInt32At hdr2 OFS_HEAD = readInt32At hdr2 OFS_BASEINDEX then
          (idx2, .ok (decInt32 (file2.read HLEN SIZEOF_INT) + 0))
        else
          match idx2.get (readInt32At hdr2 OFS_HEAD - 1) with
          | .ok rec => (idx2, .ok (rec.offset + rec.length))
          | .error e => (idx2, .error e)
      else (idx, .error (.assertion "index out of range"))
    else (idx, .error (.assertion "cannot truncate a committed log entry"))

/-- `increment(offset)` — write `offset` into the sentinel slot just past
the current head, then bump and persist the head; returns the LSN that was
just assigned (the pre-bump head). -/
def increment (idx : LogIndexFile) (offset : Int) : LogIndexFile × Except Err Int :=
  match idx.header with
  | none => (idx, .error (.assertion "index must be open"))
  | some hdr =>
    let current := readInt32At hdr OFS_HEAD
    let next := current + 1
    let base := readInt32At hdr OFS_BASEINDEX
    let ofs := ((HLEN : Int) + (next - base) * 4).toNat
    let file2 := idx.file.write ofs (encInt32 offset)
    let hdr2 := spliceAt hdr OFS_HEAD (encInt32 next)
    let file3 := file2.writeFrom OFS_HEAD hdr2 OFS_HEAD SIZEOF_INT
    (⟨file3, some hdr2⟩, .ok current)

/-- `close()` — close the file and clear the cached header. -/
def close (idx : LogIndexFile) : LogIndexFile :=
  ⟨idx.file, none⟩

/-- `create(path, baseIndex, byteOffset)` (defaults `0`, `0`): materialize
the header (marker, `base`, `head = base`, `commit = −1`) followed by the
single sentinel offset slot holding `byteOffset`, and open it. -/
def create (baseIndex byteOffset : Int) : LogIndexFile :=
  let data := MARKER ++ encInt32 baseIndex ++ encInt32 baseIndex
    ++ encInt32 DEF_COMMIT ++ encInt32 byteOffset
  ⟨⟨data⟩, some (data.take HLEN)⟩

end LogIndexFile

/-! ## The WAL facade (`src/write-ahead-log.js`) -/

/-- The `data` argument a caller passes to `wal.write`: either a genuine
byte buffer or anything else (a missing argument, a string, …), which the
file abstraction rejects. -/
inductive JsData where
  | buffer (b : Bytes)
  | notABuffer
deriving Repr, DecidableEq

/-- The argument of `wal.recover`: the literal sentinel `false`
("reject all") or a callable decision handler. -/
inductive RecoverArg where
  | sentinelFalse
  | handler (f : Int → Bytes → Bool)

/-- Modelled from the spec: the external file abstraction's payload
validation, which is not part of this repository's sources. §4.C requires
of `write(payload)` "a non-empty byte buffer", and the repository's tests
observe the assertion `data (Buffer) is required` for a missing or
non-buffer payload. A valid payload is written at `ofs` and the eventual
resolves with the subsequent byte offset. -/
def ranWrite (f : RAFile) (ofs : Nat) (data : JsData) :
    Except Err (RAFile × Int) :=
  match data with
  | .notABuffer => .error (.assertion "data (Buffer) is required")
  | .buffer b =>
    if b.isEmpty then .error (.assertion "data (Buffer) is required")
    else .ok (f.write ofs b, (ofs : Int) + b.length)

/-- A write-ahead log: one log file and one index file. -/
structure WriteAheadLog where
  log : RAFile
  index : LogIndexFile
deriving Repr, DecidableEq

namespace WriteAheadLog

/-- `get size()` — the log file's size in bytes. -/
def size (wal : WriteAheadLog) : Nat := wal.log.size

/-- `get next()` — the next LSN (the index's write head). -/
def next (wal : WriteAheadLog) : Except Err Int := wal.index.head

/-- `get commitHead()` — the most recently committed LSN. -/
def commitHead (wal : WriteAheadLog) : Except Err Int := wal.index.commitHead

/-- `isCommitted(index)` — delegates to the index. -/
def isCommitted (wal : WriteAheadLog) (index : Int) : Except Err Bool :=
  wal.index.isCommitted index

/-- `commit(index)` — delegates to the index. -/
def commit (wal : WriteAheadLog) (index : Int) : WriteAheadLog × Except Err Int :=
  let (idx2, r) := wal.index.commit index
  (⟨wal.log, idx2⟩, r)

/-- `write(data)` — look up the byte offset of the write head, write the
payload there in the log file, then increment the index with the
subsequent byte offset. -/
def write (wal : WriteAheadLog) (data : JsData) : WriteAheadLog × Except Err Int :=
  match wal.index.header with
  | none => (wal, .error (.assertion "index must be open"))
  | some hdr =>
    let head := readInt32At hdr OFS_HEAD
    match wal.index.offset head with
    | .error e => (wal, .error e)
    | .ok firstByte =>
      match ranWrite wal.log firstByte.toNat data with
      | .error e => (wal, .error e)
      | .ok (log2, subsequentByte) =>
        let (idx2, r) := wal.index.increment subsequentByte
        (⟨log2, idx2⟩, r)

/-- `read(index)` — resolve the entry's offset and length through the
index, then read those bytes from the log file. -/
def read (wal : WriteAheadLog) (index : Int) : Except Err Bytes :=
  match wal.index.get index with
  | .error e => .error e
  | .ok rec => .ok (wal.log.read rec.offset.toNat rec.length.toNat)

/-- `readRange(first, count)` — the ordered sequence of entry payloads the
returned stream emits: the index is queried once for the whole range and
each record's bytes are read from the log file in LSN order. A missing
`count` defaults to `head − first`. -/
def readRange (wal : WriteAheadLog) (first : Int) (count? : Option Int) :
    Except Err (List Bytes) :=
  match wal.index.header with
  | none => .error (.assertion "index must be open")
  | some hdr =>
    let count := count?.getD (readInt32At hdr OFS_HEAD - first)
    match wal.index.getRange first count with
    | .error e => .error e
    | .ok range => .ok (range.map (fun rec =>
        wal.log.read rec.offset.toNat rec.length.toNat))

/-- `truncate(from)` — truncate the index, then truncate the log file to
the returned end offset; resolves with the new log size. -/
def truncate (wal : WriteAheadLog) (from_ : Int) : WriteAheadLog × Except Err Int :=
  let (idx2, r) := wal.index.truncate from_
  match r with
  | .error e => (⟨wal.log, idx2⟩, .error e)
  | .ok next =>
    let log2 := wal.log.truncate next.toNat
    (⟨log2, idx2⟩, .ok (log2.size : Int))

/-- `recover`'s `truncAfterCommitHead`: truncate just past the current
commit head. -/
def truncAfterCommitHead (wal : WriteAheadLog) : WriteAheadLog × Except Err Unit :=
  match wal.commitHead with
  | .error e => (wal, .error e)
  | .ok c =>
    let (wal2, r) := wal.truncate (c + 1)
    (wal2, r.map (fun _ => ()))

/-- `recover`'s `possiblyRecover` loop: read the entry, consult the
handler, commit-and-continue on truthy, truncate on falsy. The loop runs
at most `head − index` times; `fuel` bounds the structural recursion and
is never exhausted when it starts at `head − index`. -/
def recoverLoop (h : Int → Bytes → Bool) (head : Int) :
    Nat → WriteAheadLog → Int → WriteAheadLog × Except Err Unit
  | 0, wal, _ => (wal, .ok ())
  | fuel + 1, wal, index =>
    match wal.read index with
    | .error e => (wal, .error e)
    | .ok data =>
      if h index data then
        let (wal2, r) := wal.commit index
        match r with
        | .error e => (wal2, .error e)
        | .ok committed =>
          if committed + 1 < head then recoverLoop h head fuel wal2 (committed + 1)
          else truncAfterCommitHead wal2
      else truncAfterCommitHead wal

/-- `recover(handler)` — drive the handler over the uncommitted tail
`commit+1 … head−1`; the sentinel `false` behaves as a handler that always
returns `false`. -/
def recover (wal : WriteAheadLog) (arg : RecoverArg) : WriteAheadLog × Except Err Unit :=
  match wal.index.header with
  | none => (wal, .error (.assertion "index must be open"))
  | some hdr =>
    let h := match arg with
      | .sentinelFalse => fun _ _ => false
      | .handler f => f
    let head := readInt32At hdr OFS_HEAD
    let committed := readInt32At hdr OFS_COMMIT
    if committed + 1 < head then
      recoverLoop h head (head - (committed + 1)).toNat wal (committed + 1)
    else (wal, .ok ())

/-- `WriteAheadLog.create(options)` — a freshly created WAL: an empty log
file and an index created with `baseIndex = 0` (and byte offset `0`). -/
def create : WriteAheadLog :=
  ⟨⟨[]⟩, LogIndexFile.create 0 0⟩

end WriteAheadLog

/-! ## Abstract model

A reachable WAL state is characterized by its commit head `c` and the list
`es` of entry payloads: the cached header is `IDX$ | 0 | |es| | c`, the
index file is that header followed by the offset slots
`O(0), …, O(|es|)` (with `O(i)` the prefix-sum of payload lengths) and
possibly stale trailing slots (`junk`) left behind by a truncation, and
the log file is the concatenation of the payloads. -/

/-- The 16 header bytes for `base`, `head` and `commit`. -/
def mkHeader (base head commit : Int) : Bytes :=
  MARKER ++ encInt32 base ++ encInt32 head ++ encInt32 commit

/-- Byte offset of entry `i`: the summed length of the payloads before it. -/
def offsetAt (l : List Bytes) (i : Nat) : Nat :=
  ((l.take i).map List.length).sum

/-- The packed offset-slot bytes for entries laid out from byte `ofs`:
one 4-byte slot per entry plus the sentinel slot one past the head. -/
def slotsAux (ofs : Nat) : List Bytes → Bytes
  | [] => encInt32 (ofs : Int)
  | p :: rest => encInt32 (ofs : Int) ++ slotsAux (ofs + p.length) rest

/-- `wal` is the WAL state with commit head `c`, payloads `es`, and stale
slot bytes `junk` after the sentinel slot. -/
def ModelsJ (junk : Bytes) (wal : WriteAheadLog) (c : Int) (es : List Bytes) : Prop :=
  wal.index.header = some (mkHeader 0 es.length c) ∧
  wal.index.file.data = mkHeader 0 es.length c ++ slotsAux 0 es ++ junk ∧
  wal.log.data = es.flatten ∧
  -1 ≤ c ∧ c ≤ (es.length : Int) ∧
  (es.flatten.length : Int) < 2147483648 ∧ ((es.length : Int) + 1) < 2147483648

instance ModelsJ.instDecidable (junk : Bytes) (wal : WriteAheadLog) (c : Int)
    (es : List Bytes) : Decidable (ModelsJ junk wal c es) := by
  unfold ModelsJ; infer_instance

/-- `wal` is the WAL state with commit head `c` and payloads `es`. -/
def Models (wal : WriteAheadLog) (c : Int) (es : List Bytes) : Prop :=
  ∃ junk, ModelsJ junk wal c es

/-- Sequentially chained writes (each `await`ed before the next). -/
def writeAll (wal : WriteAheadLog) : List Bytes → WriteAheadLog
  | [] => wal
  | p :: rest => writeAll (wal.write (.buffer p)).1 rest

/-- The spec's index-size invariant: the index file's byte length equals
`HLEN + (head − base + 1) * 4`, with `head` and `base` decoded from the
cached header. -/
def idxLenExact (wal : WriteAheadLog) : Prop :=
  match wal.index.header with
  | none => False
  | some hdr =>
    wal.index.file.data.length
      = HLEN + ((readInt32At hdr OFS_HEAD - readInt32At hdr OFS_BASEINDEX + 1)
          * 4).toNat

/-- The spec's log-size invariant `log.size = O(head)`: the log file's size
equals the offset stored in the sentinel slot at position `head`. -/
def logSizeInv (wal : WriteAheadLog) : Prop :=
  match wal.index.header with
  | none => False
  | some hdr =>
    (wal.log.size : Int)
      = readInt32At wal.index.file.data
          (HLEN + (((readInt32At hdr OFS_HEAD - readInt32At hdr OFS_BASEINDEX)
            * 4).toNat))

instance idxLenExact.instDecidable (wal : WriteAheadLog) :
    Decidable (idxLenExact wal) := by
  unfold idxLenExact
  exact match wal.index.header with
  | none => inferInstanceAs (Decidable False)
  | some hdr => inferInstanceAs (Decidable (_ = _))

instance logSizeInv.instDecidable (wal : WriteAheadLog) :
    Decidable (logSizeInv wal) := by
  unfold logSizeInv
  exact match wal.index.header with
  | none => inferInstanceAs (Decidable False)
  | some hdr => inferInstanceAs (Decidable (_ = _))

/-- A one-entry WAL (payload `[7]`), used to instantiate the universally
quantified theorems on a concrete state. -/
def walA : WriteAheadLog := writeAll WriteAheadLog.create [[7]]

/-- A two-entry WAL (payloads `[7]`, `[8, 9]`). -/
def walB : WriteAheadLog := writeAll WriteAheadLog.create [[7], [8, 9]]

/-- Four entries with LSNs 0 and 1 committed — the spec's recovery
scenario (S6–S8). -/
def walS : WriteAheadLog :=
  (((writeAll WriteAheadLog.create [[1], [2, 2], [3, 3, 3], [4]]).commit 0).1.commit
    1).1

/-! ### List plumbing -/

theorem dropPlus {α : Type} (l₁ : List α) (l₂ : List α) (m : Nat) :
    (l₁ ++ l₂).drop (l₁.length + m) = l₂.drop m := by
  induction l₁ with
  | nil => simp
  | cons a t ih =>
    have h : t.length + 1 + m = (t.length + m) + 1 := by omega
    simp only [List.cons_append, List.length_cons, h, List.drop_succ_cons]
    exact ih

theorem takePlus {α : Type} (l₁ : List α) (l₂ : List α) (m : Nat) :
    (l₁ ++ l₂).take (l₁.length + m) = l₁ ++ l₂.take m := by
  induction l₁ with
  | nil => simp
  | cons a t ih =>
    have h : t.length + 1 + m = (t.length + m) + 1 := by omega
    simp only [List.cons_append, List.length_cons, h, List.take_succ_cons]
    rw [ih]

theorem dropAll {α : Type} (l₁ : List α) (l₂ : List α) (m : Nat)
    (h : l₁.length = m) : (l₁ ++ l₂).drop m = l₂ := by
  subst h
  have := dropPlus l₁ l₂ 0
  simp only [Nat.add_zero, List.drop_zero] at this
  exact this

theorem takeAll {α : Type} (l₁ : List α) (l₂ : List α) (m : Nat)
    (h : l₁.length = m) : (l₁ ++ l₂).take m = l₁ := by
  subst h
  have := takePlus l₁ l₂ 0
  simp only [Nat.add_zero, List.take_zero, List.append_nil] at this
  exact this

/-! ### Header bytes -/

theorem mkHeader_length (b h c : Int) : (mkHeader b h c).length = 16 := rfl

theorem readAt_mkHeader_base (b h c : Int) :
    readInt32At (mkHeader b h c) OFS_BASEINDEX = decInt32 (encInt32 b) := rfl

theorem readAt_mkHeader_head (b h c : Int) :
    readInt32At (mkHeader b h c) OFS_HEAD = decInt32 (encInt32 h) := rfl

theorem readAt_mkHeader_commit (b h c : Int) :
    readInt32At (mkHeader b h c) OFS_COMMIT = decInt32 (encInt32 c) := rfl

theorem splice_mkHeader_head (b h c h' : Int) :
    spliceAt (mkHeader b h c) OFS_HEAD (encInt32 h') = mkHeader b h' c := rfl

theorem splice_mkHeader_commit (b h c c' : Int) :
    spliceAt (mkHeader b h c) OFS_COMMIT (encInt32 c') = mkHeader b h c' := rfl

theorem mkHeader_slice_head (b h c : Int) :
    ((mkHeader b h c).drop OFS_HEAD).take 4 = encInt32 h := rfl

theorem mkHeader_slice_commit (b h c : Int) :
    ((mkHeader b h c).drop OFS_COMMIT).take 4 = encInt32 c := rfl

theorem enc_append_drop4 (v : Int) (l : Bytes) : (encInt32 v ++ l).drop 4 = l := rfl

theorem enc_append_take4 (v : Int) (l : Bytes) : (encInt32 v ++ l).take 4 = encInt32 v := rfl

/-- Decoding the head field of a well-formed header. -/
theorem read_head_nat (b c : Int) (n : Nat) (hn : (n : Int) < 2147483648) :
    readInt32At (mkHeader b n c) OFS_HEAD = (n : Int) := by
  rw [readAt_mkHeader_head, dec_enc] <;> omega

/-- Decoding the base field of a zero-based header. -/
theorem read_base_zero (h c : Int) :
    readInt32At (mkHeader 0 h c) OFS_BASEINDEX = 0 := by
  rw [readAt_mkHeader_base, dec_enc] <;> omega

/-- Decoding the commit field of a well-formed header. -/
theorem read_commit_small (b h c : Int) (h1 : -2147483648 ≤ c)
    (h2 : c < 2147483648) :
    readInt32At (mkHeader b h c) OFS_COMMIT = c := by
  rw [readAt_mkHeader_commit, dec_enc c h1 h2]

/-! ### Offset slots -/

theorem offsetAt_zero (l : List Bytes) : offsetAt l 0 = 0 := rfl

theorem offsetAt_cons_succ (p : Bytes) (l : List Bytes) (i : Nat) :
    offsetAt (p :: l) (i + 1) = p.length + offsetAt l i := by
  simp [offsetAt, List.take_succ_cons]

theorem offsetAt_full (l : List Bytes) : offsetAt l l.length = l.flatten.length := by
  simp [offsetAt, List.take_length, List.length_flatten]

theorem offsetAt_le_total (l : List Bytes) (i : Nat) :
    offsetAt l i ≤ l.flatten.length := by
  induction l generalizing i with
  | nil => simp [offsetAt]
  | cons p t ih =>
    cases i with
    | zero => simp [offsetAt_zero]
    | succ j =>
      have := ih j
      simp only [offsetAt_cons_succ, List.flatten_cons, List.length_append]
      omega

theorem offsetAt_succ_getD (l : List Bytes) (i : Nat) (h : i < l.length) :
    offsetAt l (i + 1) = offsetAt l i + (l.getD i []).length := by
  induction l generalizing i with
  | nil => simp at h
  | cons p t ih =>
    cases i with
    | zero => simp [offsetAt_cons_succ, offsetAt_zero]
    | succ j =>
      have hj : j < t.length := by simpa using h
      simp only [offsetAt_cons_succ, List.getD_cons_succ, ih j hj]
      omega

theorem offsetAt_add (l : List Bytes) (a b : Nat) :
    offsetAt l (a + b) = offsetAt l a + offsetAt (l.drop a) b := by
  simp [offsetAt, List.take_add, List.map_append, List.sum_append]

theorem offsetAt_take (l : List Bytes) (i k : Nat) (h : k ≤ i) :
    offsetAt (l.take i) k = offsetAt l k := by
  simp [offsetAt, List.take_take, Nat.min_eq_left h]

theorem slotsAux_length (o : Nat) (l : List Bytes) :
    (slotsAux o l).length = 4 * (l.length + 1) := by
  induction l generalizing o with
  | nil => rfl
  | cons p t ih =>
    simp only [slotsAux, List.length_append, encInt32_length, ih, List.length_cons]
    omega

theorem slotsAux_take4 (o : Nat) (l : List Bytes) (junk : Bytes) :
    ((slotsAux o l) ++ junk).take 4 = encInt32 (o : Int) := by
  cases l <;> rfl

theorem slotsAux_drop (l : List Bytes) (o i : Nat) (h : i ≤ l.length) :
    (slotsAux o l).drop (4 * i) = slotsAux (o + offsetAt l i) (l.drop i) := by
  induction l generalizing o i with
  | nil =>
    have hi : i = 0 := Nat.le_zero.mp h
    subst hi
    simp [offsetAt_zero]
  | cons p t ih =>
    cases i with
    | zero => simp [offsetAt_zero]
    | succ j =>
      have hj : j ≤ t.length := by simpa using h
      have h4 : 4 * (j + 1) = 4 + 4 * j := by omega
      simp only [slotsAux, h4, offsetAt_cons_succ, List.drop_succ_cons]
      rw [show (4 : Nat) + 4 * j = (encInt32 (o : Int)).length + 4 * j from by
        simp [encInt32_length]]
      rw [dropPlus, ih (o + p.length) j hj]
      congr 1
      omega

theorem slotsAux_append (o : Nat) (l : List Bytes) (p : Bytes) :
    slotsAux o (l ++ [p]) =
      slotsAux o l ++ encInt32 ((o + l.flatten.length + p.length : Nat) : Int) := by
  induction l generalizing o with
  | nil => simp [slotsAux]
  | cons q t ih =>
    simp only [List.cons_append, slotsAux, List.flatten_cons,
      List.length_append, List.append_assoc, List.append_eq]
    rw [ih (o + q.length)]
    congr 3
    omega

theorem slotsAux_take_pref (l : List Bytes) (o i : Nat) (h : i ≤ l.length) :
    (slotsAux o l).take (4 * (i + 1)) = slotsAux o (l.take i) := by
  induction l generalizing o i with
  | nil =>
    have hi : i = 0 := Nat.le_zero.mp h
    subst hi
    simp [slotsAux, encInt32_length]
  | cons p t ih =>
    cases i with
    | zero =>
      have h4 : 4 * (0 + 1) = (encInt32 (o : Int)).length + 0 := by
        simp [encInt32_length]
      simp only [slotsAux, List.take_zero, h4, takePlus, List.append_nil]
    | succ j =>
      have hj : j ≤ t.length := by simpa using h
      have h4 : 4 * (j + 1 + 1) = (encInt32 (o : Int)).length + 4 * (j + 1) := by
        simp [encInt32_length]
        omega
      simp only [slotsAux, h4, takePlus, List.take_succ_cons, ih (o + p.length) j hj]

theorem slotsAux_read8 (o : Nat) (p : Bytes) (rest : List Bytes) (junk : Bytes) :
    ((slotsAux o (p :: rest)) ++ junk).take 8 =
      encInt32 (o : Int) ++ encInt32 ((o + p.length : Nat) : Int) := by
  have h8 : (8 : Nat) = (encInt32 (o : Int)).length + 4 := by simp [encInt32_length]
  simp only [slotsAux, List.append_assoc, h8, takePlus, slotsAux_take4]

/-! ### Flattened log bytes -/

theorem flatten_drop_take (l : List Bytes) (i : Nat) (h : i < l.length) :
    (l.flatten.drop (offsetAt l i)).take (l.getD i []).length = l.getD i [] := by
  induction l generalizing i with
  | nil => simp at h
  | cons p t ih =>
    cases i with
    | zero =>
      simp only [offsetAt_zero, List.drop_zero, List.getD_cons_zero, List.flatten_cons]
      exact takeAll p t.flatten p.length rfl
    | succ j =>
      have hj : j < t.length := by simpa using h
      simp only [offsetAt_cons_succ, List.getD_cons_succ, List.flatten_cons, dropPlus]
      exact ih j hj

theorem flatten_take (l : List Bytes) (i : Nat) (h : i ≤ l.length) :
    l.flatten.take (offsetAt l i) = (l.take i).flatten := by
  induction l generalizing i with
  | nil => simp [offsetAt]
  | cons p t ih =>
    cases i with
    | zero => simp [offsetAt_zero]
    | succ j =>
      have hj : j ≤ t.length := by simpa using h
      simp only [offsetAt_cons_succ, List.flatten_cons, List.take_succ_cons, takePlus,
        ih j hj]

/-! ### Reads and writes against the decomposed index file -/

theorem write_split (l₁ l₂ b : Bytes) (ofs : Nat) (hofs : ofs = l₁.length) :
    RAFile.write ⟨l₁ ++ l₂⟩ ofs b = ⟨l₁ ++ b ++ l₂.drop b.length⟩ := by
  subst hofs
  unfold RAFile.write
  congr 1
  simp only [List.take_left, List.length_append]
  rw [show l₁.length - (l₁.length + l₂.length) = 0 from by omega]
  simp only [List.replicate_zero, List.append_nil, List.nil_append, dropPlus]

theorem write_eof (l b : Bytes) (ofs : Nat) (hofs : ofs = l.length) :
    RAFile.write ⟨l⟩ ofs b = ⟨l ++ b⟩ := by
  have h := write_split l [] b ofs (by simpa using hofs)
  simpa using h

theorem write_header_commit (b h c c' : Int) (R : Bytes) :
    RAFile.writeFrom ⟨mkHeader b h c ++ R⟩ OFS_COMMIT (mkHeader b h c')
      OFS_COMMIT SIZEOF_INT = ⟨mkHeader b h c' ++ R⟩ := by
  unfold RAFile.writeFrom
  rw [show ((mkHeader b h c').drop OFS_COMMIT).take SIZEOF_INT = encInt32 c' from rfl]
  have hsplit : mkHeader b h c ++ R
      = (MARKER ++ encInt32 b ++ encInt32 h) ++ (encInt32 c ++ R) := by
    simp [mkHeader, List.append_assoc]
  rw [hsplit, write_split _ _ _ OFS_COMMIT (by rfl), encInt32_length,
    enc_append_drop4]
  simp [mkHeader, List.append_assoc]

theorem write_header_head (b h h' c : Int) (R : Bytes) :
    RAFile.writeFrom ⟨mkHeader b h c ++ R⟩ OFS_HEAD (mkHeader b h' c)
      OFS_HEAD SIZEOF_INT = ⟨mkHeader b h' c ++ R⟩ := by
  unfold RAFile.writeFrom
  rw [show ((mkHeader b h' c).drop OFS_HEAD).take SIZEOF_INT
    = encInt32 h' from mkHeader_slice_head b h' c]
  have hsplit : mkHeader b h c ++ R
      = (MARKER ++ encInt32 b) ++ (encInt32 h ++ (encInt32 c ++ R)) := by
    simp [mkHeader, List.append_assoc]
  rw [hsplit, write_split _ _ _ OFS_HEAD (by rfl), encInt32_length,
    enc_append_drop4]
  simp [mkHeader, List.append_assoc]

theorem slot_read4 (bh c : Int) (es : List Bytes) (junk : Bytes) (k : Nat)
    (hk : k ≤ es.length) :
    (((mkHeader 0 bh c ++ slotsAux 0 es ++ junk).drop (16 + 4 * k)).take 4)
      = encInt32 ((offsetAt es k : Nat) : Int) := by
  rw [List.append_assoc,
    show (16 : Nat) + 4 * k = (mkHeader 0 bh c).length + 4 * k from by
      rw [mkHeader_length],
    dropPlus]
  rw [List.drop_append_eq_append_drop,
    show 4 * k - (slotsAux 0 es).length = 0 from by rw [slotsAux_length]; omega]
  rw [List.drop_zero, slotsAux_drop es 0 k hk, Nat.zero_add, slotsAux_take4]

theorem slot_read8 (bh c : Int) (es : List Bytes) (junk : Bytes) (k : Nat)
    (hk : k < es.length) :
    (((mkHeader 0 bh c ++ slotsAux 0 es ++ junk).drop (16 + 4 * k)).take 8)
      = encInt32 ((offsetAt es k : Nat) : Int)
        ++ encInt32 ((offsetAt es k + (es.getD k []).length : Nat) : Int) := by
  rw [List.append_assoc,
    show (16 : Nat) + 4 * k = (mkHeader 0 bh c).length + 4 * k from by
      rw [mkHeader_length],
    dropPlus]
  rw [List.drop_append_eq_append_drop,
    show 4 * k - (slotsAux 0 es).length = 0 from by rw [slotsAux_length]; omega]
  rw [List.drop_zero, slotsAux_drop es 0 k (Nat.le_of_lt hk), Nat.zero_add]
  rw [List.drop_eq_getElem_cons hk, slotsAux_read8]
  rw [List.getD_eq_getElem es [] hk]

/-! ### Operations on modelled states -/

theorem ModelsJ.head_lt (junk : Bytes) (wal : WriteAheadLog) (c : Int)
    (es : List Bytes) (hJ : ModelsJ junk wal c es) :
    ((es.length : Int)) < 2147483648 := by
  have h7 := hJ.2.2.2.2.2.2
  omega

theorem ModelsJ.read_head (junk : Bytes) (wal : WriteAheadLog) (c : Int)
    (es : List Bytes) (hJ : ModelsJ junk wal c es) :
    readInt32At (mkHeader 0 es.length c) OFS_HEAD = (es.length : Int) :=
  read_head_nat 0 c es.length (hJ.head_lt)

theorem ModelsJ.read_commit (junk : Bytes) (wal : WriteAheadLog) (c : Int)
    (es : List Bytes) (hJ : ModelsJ junk wal c es) :
    readInt32At (mkHeader 0 es.length c) OFS_COMMIT = c := by
  have h4 := hJ.2.2.2.1
  have h5 := hJ.2.2.2.2.1
  have h7 := hJ.2.2.2.2.2.2
  exact read_commit_small 0 es.length c (by omega) (by omega)

theorem next_models (junk : Bytes) (wal : WriteAheadLog) (c : Int)
    (es : List Bytes) (hJ : ModelsJ junk wal c es) :
    wal.next = .ok (es.length : Int) := by
  unfold WriteAheadLog.next LogIndexFile.head
  rw [hJ.1]
  simp only
  rw [hJ.read_head]

theorem commitHead_models (junk : Bytes) (wal : WriteAheadLog) (c : Int)
    (es : List Bytes) (hJ : ModelsJ junk wal c es) :
    wal.commitHead = .ok c := by
  unfold WriteAheadLog.commitHead LogIndexFile.commitHead
  rw [hJ.1]
  simp only
  rw [hJ.read_commit]

theorem offset_models (junk : Bytes) (wal : WriteAheadLog) (c : Int)
    (es : List Bytes) (hJ : ModelsJ junk wal c es) (k : Nat) (hk : k ≤ es.length) :
    wal.index.offset (k : Int) = .ok ((offsetAt es k : Nat) : Int) := by
  obtain ⟨h1, h2, h3, h4, h5, h6, h7⟩ := hJ
  unfold LogIndexFile.offset
  rw [h1]
  simp only
  rw [read_head_nat 0 c es.length (by omega), read_base_zero,
    if_pos (by exact_mod_cast hk)]
  unfold RAFile.read
  rw [h2,
    show (((HLEN : Nat) : Int) + ((k : Int) - 0) * 4).toNat = 16 + 4 * k from by
      unfold HLEN; omega,
    show SIZEOF_INT = 4 from rfl,
    slot_read4 es.length c es junk k hk,
    dec_enc _ (by omega) (by have := offsetAt_le_total es k; omega)]

theorem get_models (junk : Bytes) (wal : WriteAheadLog) (c : Int)
    (es : List Bytes) (hJ : ModelsJ junk wal c es) (k : Nat) (hk : k < es.length) :
    wal.index.get (k : Int)
      = .ok ⟨((offsetAt es k : Nat) : Int), (((es.getD k []).length : Nat) : Int)⟩ := by
  obtain ⟨h1, h2, h3, h4, h5, h6, h7⟩ := hJ
  have hlen : offsetAt es k + (es.getD k []).length ≤ es.flatten.length := by
    have := offsetAt_succ_getD es k hk
    have := offsetAt_le_total es (k + 1)
    omega
  unfold LogIndexFile.get
  rw [h1]
  simp only
  rw [read_head_nat 0 c es.length (by omega), read_base_zero,
    if_pos (by exact_mod_cast hk)]
  unfold RAFile.read
  rw [h2,
    show (((HLEN : Nat) : Int) + ((k : Int) - 0) * 4).toNat = 16 + 4 * k from by
      unfold HLEN; omega,
    show 2 * SIZEOF_INT = 8 from rfl,
    slot_read8 es.length c es junk k hk]
  rw [show (encInt32 ((offsetAt es k : Nat) : Int)
      ++ encInt32 ((offsetAt es k + (es.getD k []).length : Nat) : Int)).take 4
    = encInt32 ((offsetAt es k : Nat) : Int) from enc_append_take4 _ _]
  unfold readInt32At
  rw [show SIZEOF_INT = 4 from rfl,
    show (encInt32 ((offsetAt es k : Nat) : Int)
      ++ encInt32 ((offsetAt es k + (es.getD k []).length : Nat) : Int)).drop 4
    = encInt32 ((offsetAt es k + (es.getD k []).length : Nat) : Int) from
      enc_append_drop4 _ _,
    show (encInt32 ((offsetAt es k + (es.getD k []).length : Nat) : Int)).take 4
      = encInt32 ((offsetAt es k + (es.getD k []).length : Nat) : Int) from rfl]
  rw [dec_enc _ (by omega) (by omega),
    dec_enc _ (by omega) (by omega)]
  congr 2
  push_cast
  ring

theorem read_models (junk : Bytes) (wal : WriteAheadLog) (c : Int)
    (es : List Bytes) (hJ : ModelsJ junk wal c es) (k : Nat) (hk : k < es.length) :
    wal.read (k : Int) = .ok (es.getD k []) := by
  have h3 := hJ.2.2.1
  unfold WriteAheadLog.read
  rw [get_models junk wal c es hJ k hk]
  simp only
  unfold RAFile.read
  rw [h3, Int.toNat_natCast, Int.toNat_natCast, flatten_drop_take es k hk]

theorem index_eta (idx : LogIndexFile) : idx = ⟨⟨idx.file.data⟩, idx.header⟩ := rfl

theorem increment_models (junk : Bytes) (wal : WriteAheadLog) (c : Int)
    (es : List Bytes) (hJ : ModelsJ junk wal c es) (v : Int) :
    wal.index.increment v
      = (⟨⟨mkHeader 0 ((es.length : Int) + 1) c
            ++ (slotsAux 0 es ++ (encInt32 v ++ junk.drop 4))⟩,
          some (mkHeader 0 ((es.length : Int) + 1) c)⟩,
         .ok (es.length : Int)) := by
  obtain ⟨h1, h2, h3, h4, h5, h6, h7⟩ := hJ
  unfold LogIndexFile.increment
  rw [h1]
  simp only
  rw [read_head_nat 0 c es.length (by omega), read_base_zero]
  have hfile : wal.index.file
      = ⟨mkHeader 0 (es.length : Int) c ++ slotsAux 0 es ++ junk⟩ := by
    rw [index_eta wal.index, h2]
  have hofs : (((HLEN : Nat) : Int) + ((es.length : Int) + 1 - 0) * 4).toNat
      = (mkHeader 0 (es.length : Int) c ++ slotsAux 0 es).length := by
    rw [List.length_append, mkHeader_length, slotsAux_length]
    unfold HLEN
    omega
  rw [hfile, write_split _ _ _ _ hofs, encInt32_length,
    splice_mkHeader_head]
  have hassoc : (mkHeader 0 (es.length : Int) c ++ slotsAux 0 es)
        ++ encInt32 v ++ junk.drop 4
      = mkHeader 0 (es.length : Int) c
        ++ (slotsAux 0 es ++ (encInt32 v ++ junk.drop 4)) := by
    simp [List.append_assoc]
  rw [hassoc, write_header_head]

theorem commit_models_exact (junk : Bytes) (wal : WriteAheadLog) (c : Int)
    (es : List Bytes) (hJ : ModelsJ junk wal c es) :
    wal.commit (c + 1)
      = (⟨wal.log,
          ⟨⟨mkHeader 0 (es.length : Int) (c + 1) ++ slotsAux 0 es ++ junk⟩,
            some (mkHeader 0 (es.length : Int) (c + 1))⟩⟩,
         .ok (c + 1)) := by
  have h1 := hJ.1
  have h2 := hJ.2.1
  unfold WriteAheadLog.commit LogIndexFile.commit
  rw [h1]
  simp only
  rw [hJ.read_commit, if_neg (lt_irrefl (c + 1)), if_neg (by simp)]
  rw [splice_mkHeader_commit]
  have hfile : wal.index.file
      = ⟨mkHeader 0 (es.length : Int) c ++ (slotsAux 0 es ++ junk)⟩ := by
    rw [index_eta wal.index, h2]
    rw [List.append_assoc]
  rw [hfile, write_header_commit]
  simp [List.append_assoc]

theorem commit_models_idem (junk : Bytes) (wal : WriteAheadLog) (c : Int)
    (es : List Bytes) (hJ : ModelsJ junk wal c es) (L : Int) (hL : L < c + 1) :
    wal.commit L = (wal, .ok L) := by
  unfold WriteAheadLog.commit LogIndexFile.commit
  rw [hJ.1]
  simp only
  rw [hJ.read_commit, if_pos hL]

theorem commit_models_outOfOrder (junk : Bytes) (wal : WriteAheadLog) (c : Int)
    (es : List Bytes) (hJ : ModelsJ junk wal c es) (L : Int) (hL : c + 1 < L) :
    wal.commit L
      = (wal, .error (.failure
          s!"Out of order commit; expected {c + 1} but received {L}.")) := by
  unfold WriteAheadLog.commit LogIndexFile.commit
  rw [hJ.1]
  simp only
  rw [hJ.read_commit, if_neg (by omega), if_pos (by omega)]

theorem write_models (junk : Bytes) (wal : WriteAheadLog) (c : Int)
    (es : List Bytes) (hJ : ModelsJ junk wal c es) (p : Bytes) (hp : p ≠ [])
    (hsz : ((es.flatten.length + p.length : Nat) : Int) < 2147483648)
    (hn : (es.length : Int) + 2 < 2147483648) :
    (wal.write (.buffer p)).2 = .ok (es.length : Int) ∧
    ModelsJ (junk.drop 4) (wal.write (.buffer p)).1 c (es ++ [p]) := by
  obtain ⟨h1, h2, h3, h4, h5, h6, h7⟩ := hJ
  have hJ' : ModelsJ junk wal c es := ⟨h1, h2, h3, h4, h5, h6, h7⟩
  have hwr : wal.write (.buffer p)
      = (⟨⟨es.flatten ++ p⟩,
          ⟨⟨mkHeader 0 ((es.length : Int) + 1) c
              ++ (slotsAux 0 es
                  ++ (encInt32 ((es.flatten.length : Int) + (p.length : Int))
                      ++ junk.drop 4))⟩,
            some (mkHeader 0 ((es.length : Int) + 1) c)⟩⟩,
         .ok (es.length : Int)) := by
    unfold WriteAheadLog.write
    rw [h1]
    simp only
    rw [read_head_nat 0 c es.length (by omega)]
    rw [show ((es.length : Nat) : Int) = (((es.length : Nat) : Nat) : Int) from rfl,
      offset_models junk wal c es hJ' es.length (Nat.le_refl _)]
    simp only
    unfold ranWrite
    simp only
    rw [if_neg (by simpa using hp)]
    simp only
    have hlog : wal.log = ⟨es.flatten⟩ := by
      rw [show wal.log = ⟨wal.log.data⟩ from rfl, h3]
    rw [hlog, write_eof es.flatten p ((offsetAt es es.length : Int)).toNat
      (by rw [Int.toNat_natCast, offsetAt_full])]
    rw [Int.toNat_natCast]
    rw [increment_models junk wal c es hJ'
      (((offsetAt es es.length : Nat) : Int) + (p.length : Int))]
    rw [show ((offsetAt es es.length : Nat) : Int) = (es.flatten.length : Int) from by
      rw [offsetAt_full]]
  constructor
  · rw [hwr]
  · rw [hwr]
    refine ⟨?_, ?_, ?_, h4, ?_, ?_, ?_⟩
    · simp only [List.length_append, List.length_cons, List.length_nil]
      push_cast
      rfl
    · simp only
      rw [slotsAux_append 0 es p]
      rw [show ((0 + es.flatten.length + p.length : Nat) : Int)
          = (es.flatten.length : Int) + (p.length : Int) from by push_cast; ring]
      simp only [List.length_append, List.length_cons, List.length_nil]
      push_cast
      simp [List.append_assoc]
    · simp [List.flatten_append]
    · simp only [List.length_append, List.length_cons, List.length_nil]
      push_cast
      omega
    · simp only [List.flatten_append, List.length_append, List.flatten_cons,
        List.flatten_nil, List.append_nil]
      push_cast
      push_cast at hsz
      omega
    · simp only [List.length_append, List.length_cons, List.length_nil]
      push_cast
      omega

theorem writeAll_models (ps : List Bytes) (junk : Bytes) (wal : WriteAheadLog)
    (c : Int) (es : List Bytes) (hJ : ModelsJ junk wal c es)
    (hne : ∀ p ∈ ps, p ≠ [])
    (hsz : ((es.flatten.length + ps.flatten.length : Nat) : Int) < 2147483648)
    (hn : ((es.length + ps.length : Nat) : Int) + 1 < 2147483648) :
    ModelsJ (junk.drop (4 * ps.length)) (writeAll wal ps) c (es ++ ps) := by
  induction ps generalizing junk wal es with
  | nil =>
    simpa [writeAll] using hJ
  | cons p rest ih =>
    have hp : p ≠ [] := hne p (by simp)
    have hfc : (p :: rest).flatten.length = p.length + rest.flatten.length := by
      simp only [List.flatten_cons, List.length_append]
    have hlc : (p :: rest).length = rest.length + 1 := rfl
    have hfa : (es ++ [p]).flatten.length = es.flatten.length + p.length := by
      simp only [List.flatten_append, List.flatten_cons, List.flatten_nil,
        List.append_nil, List.length_append]
    have hla : (es ++ [p]).length = es.length + 1 := by
      simp only [List.length_append, List.length_cons, List.length_nil]
    have hstep := write_models junk wal c es hJ p hp (by omega) (by omega)
    have hrec := ih (junk.drop 4) (wal.write (.buffer p)).1 (es ++ [p]) hstep.2
      (fun q hq => hne q (by simp [hq]))
      (by omega) (by omega)
    rw [List.drop_drop] at hrec
    rw [show writeAll wal (p :: rest) = writeAll (wal.write (.buffer p)).1 rest from rfl]
    rw [show 4 * (p :: rest).length = 4 + 4 * rest.length from by
      rw [hlc]; omega]
    rw [show (es ++ p :: rest) = (es ++ [p]) ++ rest from by simp]
    exact hrec

theorem take_flatten_length (es : List Bytes) (T : Nat) (hT : T ≤ es.length) :
    (es.take T).flatten.length = offsetAt es T := by
  have h1 : (es.take T).length = T := by
    rw [List.length_take, Nat.min_eq_left hT]
  have h2 := offsetAt_full (es.take T)
  rw [h1] at h2
  rw [← h2, offsetAt_take es T T (Nat.le_refl T)]

theorem truncate_models (junk : Bytes) (wal : WriteAheadLog) (c : Int)
    (es : List Bytes) (hJ : ModelsJ junk wal c es) (T : Nat)
    (hcT : c < (T : Int)) (hTn : T < es.length) :
    wal.truncate (T : Int)
      = (⟨⟨(es.take T).flatten⟩,
          ⟨⟨mkHeader 0 (T : Int) c ++ (slotsAux 0 es ++ junk)⟩,
            some (mkHeader 0 (T : Int) c)⟩⟩,
         .ok ((offsetAt es T : Nat) : Int)) ∧
    ModelsJ ((slotsAux 0 es).drop (4 * (T + 1)) ++ junk) (wal.truncate (T : Int)).1
      c (es.take T) := by
  obtain ⟨h1, h2, h3, h4, h5, h6, h7⟩ := hJ
  have htklen : (es.take T).length = T := by
    rw [List.length_take, Nat.min_eq_left (Nat.le_of_lt hTn)]
  have hofsT : (es.take T).flatten.length = offsetAt es T :=
    take_flatten_length es T (Nat.le_of_lt hTn)
  -- the state after the index truncation, as a WAL (log already final)
  have hslots : slotsAux 0 es
      = slotsAux 0 (es.take T) ++ (slotsAux 0 es).drop (4 * (T + 1)) := by
    conv_lhs => rw [← List.take_append_drop (4 * (T + 1)) (slotsAux 0 es)]
    rw [slotsAux_take_pref es 0 T (Nat.le_of_lt hTn)]
  have hJ2 : ModelsJ ((slotsAux 0 es).drop (4 * (T + 1)) ++ junk)
      (⟨⟨(es.take T).flatten⟩,
        ⟨⟨mkHeader 0 (T : Int) c ++ (slotsAux 0 es ++ junk)⟩,
          some (mkHeader 0 (T : Int) c)⟩⟩ : WriteAheadLog)
      c (es.take T) := by
    refine ⟨?_, ?_, rfl, h4, ?_, ?_, ?_⟩
    · simp only [htklen]
    · simp only [htklen]
      conv_lhs => rw [hslots]
      simp [List.append_assoc]
    · rw [htklen]; omega
    · have := offsetAt_le_total es T
      rw [hofsT]
      omega
    · rw [htklen]
      omega
  -- evaluate the operation
  have hmain : wal.truncate (T : Int)
      = (⟨⟨(es.take T).flatten⟩,
          ⟨⟨mkHeader 0 (T : Int) c ++ (slotsAux 0 es ++ junk)⟩,
            some (mkHeader 0 (T : Int) c)⟩⟩,
         .ok ((offsetAt es T : Nat) : Int)) := by
    unfold WriteAheadLog.truncate LogIndexFile.truncate
    rw [h1]
    simp only
    rw [read_commit_small 0 es.length c (by omega) (by omega), if_pos hcT,
      read_head_nat 0 c es.length (by omega), if_pos (by exact_mod_cast hTn),
      splice_mkHeader_head]
    have hfile : wal.index.file
        = ⟨mkHeader 0 (es.length : Int) c ++ (slotsAux 0 es ++ junk)⟩ := by
      rw [index_eta wal.index, h2]
      simp [List.append_assoc]
    rw [hfile, write_header_head]
    rw [read_head_nat 0 c T (by omega), read_base_zero]
    by_cases hT0 : T = 0
    · subst hT0
      rw [if_pos (by simp)]
      simp only
      unfold RAFile.read
      rw [show HLEN = 16 + 4 * 0 from rfl]
      rw [show mkHeader 0 ((0 : Nat) : Int) c ++ (slotsAux 0 es ++ junk)
          = mkHeader 0 ((0 : Nat) : Int) c ++ slotsAux 0 es ++ junk from by
        simp [List.append_assoc]]
      rw [show SIZEOF_INT = 4 from rfl,
        slot_read4 ((0 : Nat) : Int) c es junk 0 (Nat.zero_le _),
        dec_enc _ (by omega) (by have := offsetAt_le_total es 0; omega)]
      rw [show ((offsetAt es 0 : Nat) : Int) + 0 = ((offsetAt es 0 : Nat) : Int)
        from by ring]
      unfold RAFile.truncate
      rw [h3, Int.toNat_natCast]
      rw [show offsetAt es 0 = 0 from offsetAt_zero es]
      rfl
    · rw [if_neg (by
        intro hx
        exact hT0 (by exact_mod_cast hx))]
      have hcast : (T : Int) - 1 = ((T - 1 : Nat) : Int) := by omega
      rw [hcast]
      have hget := get_models ((slotsAux 0 es).drop (4 * (T + 1)) ++ junk)
        (⟨⟨(es.take T).flatten⟩,
          ⟨⟨mkHeader 0 (T : Int) c ++ (slotsAux 0 es ++ junk)⟩,
            some (mkHeader 0 (T : Int) c)⟩⟩ : WriteAheadLog)
        c (es.take T) hJ2 (T - 1) (by omega)
      rw [show (⟨⟨mkHeader 0 (T : Int) c ++ (slotsAux 0 es ++ junk)⟩,
            some (mkHeader 0 (T : Int) c)⟩ : LogIndexFile).get ((T - 1 : Nat) : Int)
          = .ok ⟨((offsetAt (es.take T) (T - 1) : Nat) : Int),
              ((((es.take T).getD (T - 1) []).length : Nat) : Int)⟩ from hget]
      simp only
      have hsum : ((offsetAt (es.take T) (T - 1) : Nat) : Int)
            + ((((es.take T).getD (T - 1) []).length : Nat) : Int)
          = ((offsetAt es T : Nat) : Int) := by
        have hstep := offsetAt_succ_getD (es.take T) (T - 1) (by omega)
        rw [show T - 1 + 1 = T from by omega] at hstep
        have htk := offsetAt_take es T T (Nat.le_refl T)
        omega
      rw [hsum]
      unfold RAFile.truncate
      rw [h3, Int.toNat_natCast]
      rw [show es.flatten.take (offsetAt es T) = (es.take T).flatten from
        flatten_take es T (Nat.le_of_lt hTn)]
      rw [show (RAFile.mk ((es.take T).flatten)).size = (es.take T).flatten.length
        from rfl]
      rw [hofsT]
  exact ⟨hmain, by rw [hmain]; exact hJ2⟩

theorem truncate_committed (junk : Bytes) (wal : WriteAheadLog) (c : Int)
    (es : List Bytes) (hJ : ModelsJ junk wal c es) (T : Int) (hT : T ≤ c) :
    wal.truncate T
      = (wal, .error (.assertion "cannot truncate a committed log entry")) := by
  unfold WriteAheadLog.truncate LogIndexFile.truncate
  rw [hJ.1]
  simp only
  rw [hJ.read_commit, if_neg (by omega)]

theorem truncate_outOfRange (junk : Bytes) (wal : WriteAheadLog) (c : Int)
    (es : List Bytes) (hJ : ModelsJ junk wal c es) (T : Int) (hcT : c < T)
    (hT : (es.length : Int) ≤ T) :
    wal.truncate T = (wal, .error (.assertion "index out of range")) := by
  unfold WriteAheadLog.truncate LogIndexFile.truncate
  rw [hJ.1]
  simp only
  rw [hJ.read_commit, if_pos hcT, hJ.read_head, if_neg (by omega)]

theorem recover_false_noop (junk : Bytes) (wal : WriteAheadLog) (c : Int)
    (es : List Bytes) (hJ : ModelsJ junk wal c es)
    (h : (es.length : Int) ≤ c + 1) :
    wal.recover .sentinelFalse = (wal, .ok ()) := by
  unfold WriteAheadLog.recover
  rw [hJ.1]
  simp only
  rw [hJ.read_head, hJ.read_commit, if_neg (by omega)]

theorem recover_false_truncates (junk : Bytes) (wal : WriteAheadLog) (c : Int)
    (es : List Bytes) (hJ : ModelsJ junk wal c es)
    (h : c + 1 < (es.length : Int)) :
    wal.recover .sentinelFalse
      = (⟨⟨(es.take (c + 1).toNat).flatten⟩,
          ⟨⟨mkHeader 0 (c + 1) c ++ (slotsAux 0 es ++ junk)⟩,
            some (mkHeader 0 (c + 1) c)⟩⟩,
         .ok ())
      ∧ ModelsJ ((slotsAux 0 es).drop (4 * ((c + 1).toNat + 1)) ++ junk)
          (wal.recover .sentinelFalse).1 c (es.take (c + 1).toNat) := by
  have h4 := hJ.2.2.2.1
  have hTc : (((c + 1).toNat : Nat) : Int) = c + 1 := by omega
  have htr := truncate_models junk wal c es hJ (c + 1).toNat (by omega)
    (by omega)
  rw [hTc] at htr
  have hrun : wal.recover .sentinelFalse = wal.truncAfterCommitHead := by
    unfold WriteAheadLog.recover
    rw [hJ.1]
    simp only
    rw [hJ.read_head, hJ.read_commit, if_pos (by omega)]
    obtain ⟨m, hm⟩ : ∃ m, ((es.length : Int) - (c + 1)).toNat = m + 1 :=
      ⟨((es.length : Int) - (c + 1)).toNat - 1, by omega⟩
    rw [hm]
    unfold WriteAheadLog.recoverLoop
    rw [show (c + 1 : Int) = (((c + 1).toNat : Nat) : Int) from hTc.symm,
      read_models junk wal c es hJ (c + 1).toNat (by omega)]
    simp only
    rw [if_neg (by simp)]
  have hM := htr.2
  rw [htr.1] at hM
  rw [hrun]
  unfold WriteAheadLog.truncAfterCommitHead
  rw [commitHead_models junk wal c es hJ]
  simp only
  rw [htr.1]
  exact ⟨rfl, hM⟩

/-! ### Range reads -/

theorem readInt32At_take (X : Bytes) (N m : Nat) (h : m + 4 ≤ N) :
    readInt32At (X.take N) m = readInt32At X m := by
  unfold readInt32At
  rw [List.drop_take, List.take_take, Nat.min_eq_left (by omega)]

theorem slot_read4_from (bh c : Int) (es : List Bytes) (junk : Bytes)
    (first j : Nat) (hk : first + j ≤ es.length)
    (hflat : (es.flatten.length : Int) < 2147483648) :
    readInt32At ((mkHeader 0 bh c ++ slotsAux 0 es ++ junk).drop (16 + 4 * first))
      (4 * j) = ((offsetAt es (first + j) : Nat) : Int) := by
  unfold readInt32At
  rw [List.drop_drop, show 16 + 4 * first + 4 * j = 16 + 4 * (first + j) from by omega,
    slot_read4 bh c es junk (first + j) hk]
  have hle := offsetAt_le_total es (first + j)
  exact dec_enc _ (by omega) (by omega)

theorem getRange_models (junk : Bytes) (wal : WriteAheadLog) (c : Int)
    (es : List Bytes) (hJ : ModelsJ junk wal c es) (first count : Nat)
    (hf : first < es.length) (hfc : first + count ≤ es.length) :
    wal.index.getRange (first : Int) (count : Int)
      = .ok ((List.range count).map (fun i =>
          ⟨((first + i : Nat) : Int), ((offsetAt es (first + i) : Nat) : Int),
           (((es.getD (first + i) []).length : Nat) : Int)⟩)) := by
  obtain ⟨h1, h2, h3, h4, h5, h6, h7⟩ := hJ
  unfold LogIndexFile.getRange
  rw [h1]
  simp only
  rw [read_head_nat 0 c es.length (by omega), if_pos (by exact_mod_cast hf),
    if_pos (by omega), read_base_zero]
  unfold RAFile.read
  rw [h2,
    show (((HLEN : Nat) : Int) + (((first : Nat) : Int) - 0) * 4).toNat
      = 16 + 4 * first from by unfold HLEN; omega,
    show ((((count : Nat) : Int) + 1) * 4).toNat = (count + 1) * 4 from by omega]
  unfold LogIndexFile.buildRange
  rw [Int.toNat_natCast]
  congr 1
  apply List.map_congr_left
  intro i hi
  have hic : i < count := List.mem_range.mp hi
  rw [show i * SIZEOF_INT = 4 * i from by unfold SIZEOF_INT; omega,
    show (i + 1) * SIZEOF_INT = 4 * (i + 1) from by unfold SIZEOF_INT; omega]
  rw [readInt32At_take _ _ _ (by omega), readInt32At_take _ _ _ (by omega)]
  rw [slot_read4_from ((es.length : Nat) : Int) c es junk first i (by omega) h6,
    slot_read4_from ((es.length : Nat) : Int) c es junk first (i + 1) (by omega) h6]
  simp only [RangeRec.mk.injEq]
  refine ⟨by push_cast; ring, trivial, ?_⟩
  have hstep := offsetAt_succ_getD es (first + i) (by omega)
  rw [show first + (i + 1) = first + i + 1 from by omega]
  omega

theorem map_range_getD (es : List Bytes) (first count : Nat)
    (h : first + count ≤ es.length) :
    (List.range count).map (fun i => es.getD (first + i) [])
      = (es.drop first).take count := by
  apply List.ext_getElem
  · simp only [List.length_map, List.length_range, List.length_take,
      List.length_drop]
    omega
  · intro n h₁ h₂
    simp only [List.getElem_map, List.getElem_range, List.getElem_take,
      List.getElem_drop]
    have hn : n < count := by simpa using h₁
    rw [List.getD_eq_getElem es [] (by omega)]

theorem readRange_models (junk : Bytes) (wal : WriteAheadLog) (c : Int)
    (es : List Bytes) (hJ : ModelsJ junk wal c es) (first count : Nat)
    (hf : first < es.length) (hfc : first + count ≤ es.length) :
    wal.readRange (first : Int) (some (count : Int))
      = .ok ((es.drop first).take count) := by
  have h3 := hJ.2.2.1
  unfold WriteAheadLog.readRange
  rw [hJ.1]
  simp only [Option.getD_some]
  rw [getRange_models junk wal c es hJ first count hf hfc]
  simp only
  rw [List.map_map]
  congr 1
  rw [← map_range_getD es first count hfc]
  apply List.map_congr_left
  intro i hi
  have hic : i < count := List.mem_range.mp hi
  simp only [Function.comp]
  unfold RAFile.read
  rw [h3, Int.toNat_natCast, Int.toNat_natCast,
    flatten_drop_take es (first + i) (by omega)]

theorem readRange_default (junk : Bytes) (wal : WriteAheadLog) (c : Int)
    (es : List Bytes) (hJ : ModelsJ junk wal c es) (first : Nat)
    (hf : first < es.length) :
    wal.readRange (first : Int) none = .ok (es.drop first) := by
  have hcast : readInt32At (mkHeader 0 (es.length : Int) c) OFS_HEAD
        - ((first : Nat) : Int)
      = (((es.length - first : Nat) : Nat) : Int) := by
    rw [hJ.read_head]
    omega
  have hmain := readRange_models junk wal c es hJ first (es.length - first) hf
    (by omega)
  unfold WriteAheadLog.readRange at hmain ⊢
  rw [hJ.1] at hmain ⊢
  simp only [Option.getD_some] at hmain
  simp only [Option.getD_none]
  rw [hcast, hmain,
    show (es.drop first).take (es.length - first) = es.drop first from by
      rw [← List.length_drop first es]
      exact List.take_length _]

/-! ## The claims -/

/-- C1. Write/read round-trip: for every sequence of sequentially chained
writes of payloads `p₀ … p₍ₙ₋₁₎` to a freshly created WAL (non-empty
payloads whose total size and count fit the index's signed 32-bit
offsets), a subsequent `read i` for each `i < n` resolves with a buffer
byte-for-byte equal to `pᵢ`. -/
theorem c1_write_read_roundtrip (ps : List Bytes) (hne : ∀ p ∈ ps, p ≠ [])
    (hsz : ((ps.flatten.length : Nat) : Int) < 2147483648)
    (hn : ((ps.length : Nat) : Int) + 1 < 2147483648)
    (i : Nat) (hi : i < ps.length) :
    (writeAll WriteAheadLog.create ps).read (i : Int) = .ok (ps.getD i []) := by
  have hc : ModelsJ [] WriteAheadLog.create (-1) [] := by decide
  have h := writeAll_models ps [] WriteAheadLog.create (-1) [] hc hne
    (by simpa using hsz) (by simpa using hn)
  simp only [List.nil_append, List.drop_nil] at h
  exact read_models _ _ _ _ h i hi

/-- Witness for C1 at the concrete run `write [104, 105]; write [3]`,
reading LSN 1 back. -/
theorem c1_witness :
    (writeAll WriteAheadLog.create [[104, 105], [3]]).read ((1 : Nat) : Int)
      = .ok ([[104, 105], [3]].getD 1 []) :=
  c1_write_read_roundtrip [[104, 105], [3]] (by decide) (by decide) (by decide)
    1 (by decide)

/-- C2. Ordered-commit protocol on a reachable state with commit head `c`:
`commit (c+1)` succeeds, sets and persists the commit head (the four bytes
at file offset 12) and resolves with `c+1`, leaving the log and the write
head untouched; `commit L` with `L < c+1` resolves with `L` and changes
nothing; `commit L` with `L > c+1` rejects with the protocol error
`Out of order commit; expected c+1 but received L.` and changes nothing. -/
theorem c2_commit_protocol (wal : WriteAheadLog) (c : Int) (es : List Bytes)
    (hM : Models wal c es) (L : Int) :
    (L = c + 1 →
      (wal.commit L).2 = .ok L ∧
      (wal.commit L).1.commitHead = .ok L ∧
      (wal.commit L).1.next = wal.next ∧
      (wal.commit L).1.log = wal.log ∧
      ((wal.commit L).1.index.file.data.drop OFS_COMMIT).take 4 = encInt32 L ∧
      (L ≤ (es.length : Int) → Models (wal.commit L).1 L es)) ∧
    (L < c + 1 → wal.commit L = (wal, .ok L)) ∧
    (c + 1 < L → wal.commit L
      = (wal, .error (.failure
          s!"Out of order commit; expected {c + 1} but received {L}."))) := by
  obtain ⟨junk, hJ⟩ := hM
  obtain ⟨h1, h2, h3, h4, h5, h6, h7⟩ := hJ
  have hJ' : ModelsJ junk wal c es := ⟨h1, h2, h3, h4, h5, h6, h7⟩
  refine ⟨?_, ?_, ?_⟩
  · intro hL
    subst hL
    rw [commit_models_exact junk wal c es hJ']
    refine ⟨rfl, ?_, ?_, rfl, ?_, ?_⟩
    · unfold WriteAheadLog.commitHead LogIndexFile.commitHead
      simp only
      exact congrArg Except.ok
        (read_commit_small 0 (es.length : Int) (c + 1) (by omega) (by omega))
    · unfold WriteAheadLog.next LogIndexFile.head
      rw [h1]
      simp only
      rfl
    · simp only
      rw [show mkHeader 0 (es.length : Int) (c + 1) ++ slotsAux 0 es ++ junk
          = (MARKER ++ encInt32 0 ++ encInt32 (es.length : Int))
            ++ (encInt32 (c + 1) ++ (slotsAux 0 es ++ junk)) from by
        simp [mkHeader, List.append_assoc]]
      rw [dropAll _ _ OFS_COMMIT (by rfl), enc_append_take4]
    · intro hle
      exact ⟨junk, rfl, rfl, h3, by omega, hle, h6, h7⟩
  · intro hL
    exact commit_models_idem junk wal c es hJ' L hL
  · intro hL
    exact commit_models_outOfOrder junk wal c es hJ' L hL

/-- Witness for C2 on the one-entry state `walA` (commit head −1),
committing LSN 0. -/
theorem c2_witness :
    (walA.commit 0).2 = .ok 0 ∧
    (walA.commit 0).1.commitHead = .ok 0 ∧
    (walA.commit 0).1.next = walA.next ∧
    (walA.commit 0).1.log = walA.log ∧
    ((walA.commit 0).1.index.file.data.drop OFS_COMMIT).take 4 = encInt32 0 ∧
    (0 ≤ (([[7]] : List Bytes).length : Int) →
      Models (walA.commit 0).1 0 [[7]]) :=
  (c2_commit_protocol walA (-1) [[7]] ⟨[], by decide⟩ 0).1 (by decide)

/-- C3. Truncate postcondition and frame on a reachable state: with
`commit < T < next` the operation resolves with the new end offset
`O(T) = Σ_{i<T}|pᵢ|`, the write head becomes `T`, the commit head is
unchanged, and the log file is cut to exactly the entries below `T`; with
`T ≤ commit` it rejects with `cannot truncate a committed log entry` and
changes nothing; with `T ≥ next` it rejects with `index out of range` and
changes nothing. -/
theorem c3_truncate (wal : WriteAheadLog) (c : Int) (es : List Bytes)
    (hM : Models wal c es) (T : Int) :
    (c < T → T < (es.length : Int) →
      (wal.truncate T).2 = .ok ((offsetAt es T.toNat : Nat) : Int) ∧
      (wal.truncate T).1.next = .ok T ∧
      (wal.truncate T).1.commitHead = .ok c ∧
      (wal.truncate T).1.size = (es.take T.toNat).flatten.length ∧
      Models (wal.truncate T).1 c (es.take T.toNat)) ∧
    (T ≤ c → wal.truncate T
      = (wal, .error (.assertion "cannot truncate a committed log entry"))) ∧
    (c < T → (es.length : Int) ≤ T → wal.truncate T
      = (wal, .error (.assertion "index out of range"))) := by
  obtain ⟨junk, hJ⟩ := hM
  refine ⟨?_, ?_, ?_⟩
  · intro hcT hTn
    have h4 : -1 ≤ c := hJ.2.2.2.1
    have hTcast : T = ((T.toNat : Nat) : Int) := by omega
    have hTn' : T.toNat < es.length := by omega
    have htr := truncate_models junk wal c es hJ T.toNat (by omega) hTn'
    rw [hTcast, htr.1]
    have hres := htr.2
    rw [htr.1] at hres
    rw [← hTcast] at hres ⊢
    have hlen : (es.take T.toNat).length = T.toNat := by
      rw [List.length_take, Nat.min_eq_left (Nat.le_of_lt hTn')]
    refine ⟨rfl, ?_, ?_, ?_, ⟨_, hres⟩⟩
    · rw [next_models _ _ _ _ hres, hlen]
      rw [show ((T.toNat : Nat) : Int) = T from hTcast.symm]
    · exact commitHead_models _ _ _ _ hres
    · rfl
  · intro hT
    exact truncate_committed junk wal c es hJ T hT
  · intro hcT hT
    exact truncate_outOfRange junk wal c es hJ T hcT hT

/-- Witness for C3 on the two-entry state `walB`, truncating at LSN 1. -/
theorem c3_witness :
    ((walB.truncate 1).2
        = .ok ((offsetAt [[7], [8, 9]] (1 : Int).toNat : Nat) : Int) ∧
      (walB.truncate 1).1.next = .ok 1 ∧
      (walB.truncate 1).1.commitHead = .ok (-1) ∧
      (walB.truncate 1).1.size
        = (([[7], [8, 9]] : List Bytes).take (1 : Int).toNat).flatten.length ∧
      Models (walB.truncate 1).1 (-1)
        (([[7], [8, 9]] : List Bytes).take (1 : Int).toNat)) :=
  (c3_truncate walB (-1) [[7], [8, 9]] ⟨[], by decide⟩ 1).1 (by decide) (by decide)

/-- C4. The claim fails on the code: on the spec's own recovery scenario
(four entries, LSNs 0 and 1 committed) a `recover` whose handler accepts
every entry does commit LSNs 2 and 3 in order, but then finishes with
`truncate(commitHead + 1)` where `commitHead + 1 = head`, so the final
truncation trips the `index out of range` assertion and the whole
`recover` call rejects instead of completing successfully (the repo's own
test suite expects success here). The last conjunct drives the same run
with a handler that accepts only an entry byte-for-byte equal to the
originally written payload of its LSN: it also ends committed-to-3, so the
handler was invoked once per uncommitted LSN in increasing order with each
entry's exact payload. -/
theorem c4_recover_all_truthy_rejects :
    (walS.recover (.handler (fun _ _ => true))).2
      = .error (.assertion "index out of range") ∧
    (walS.recover (.handler (fun _ _ => true))).1.commitHead = .ok 3 ∧
    (walS.recover (.handler (fun _ _ => true))).1.next = .ok 4 ∧
    (walS.recover (.handler (fun lsn data =>
        decide (data = [[1], [2, 2], [3, 3, 3], [4]].getD lsn.toNat [])))).2
      = .error (.assertion "index out of range") ∧
    (walS.recover (.handler (fun lsn data =>
        decide (data = [[1], [2, 2], [3, 3, 3], [4]].getD lsn.toNat [])))).1.commitHead
      = .ok 3 := by
  exact ⟨by decide, by decide, by decide, by decide, by decide⟩

/-- C5. `recover(false)` rejects all uncommitted entries: on a reachable
state with commit head `c` and write head `n`, when `c + 1 < n` the call
resolves and afterwards `next = c + 1` with the commit head still `c`;
when `c + 1 ≥ n` the call returns immediately and nothing changes. -/
theorem c5_recover_false (wal : WriteAheadLog) (c : Int) (es : List Bytes)
    (hM : Models wal c es) :
    (c + 1 < (es.length : Int) →
      (wal.recover .sentinelFalse).2 = .ok () ∧
      (wal.recover .sentinelFalse).1.next = .ok (c + 1) ∧
      (wal.recover .sentinelFalse).1.commitHead = .ok c) ∧
    ((es.length : Int) ≤ c + 1 → wal.recover .sentinelFalse = (wal, .ok ())) := by
  obtain ⟨junk, hJ⟩ := hM
  refine ⟨?_, ?_⟩
  · intro h
    have h4 : -1 ≤ c := hJ.2.2.2.1
    have hr := recover_false_truncates junk wal c es hJ h
    have hres := hr.2
    have hlen : (es.take (c + 1).toNat).length = (c + 1).toNat := by
      rw [List.length_take, Nat.min_eq_left (by omega)]
    refine ⟨by rw [hr.1], ?_, commitHead_models _ _ _ _ hres⟩
    rw [next_models _ _ _ _ hres, hlen]
    congr 1
    omega
  · intro h
    exact recover_false_noop junk wal c es hJ h

/-- Witness for C5 on the recovery scenario `walS` (4 entries, commit
head 1). -/
theorem c5_witness :
    (walS.recover .sentinelFalse).2 = .ok () ∧
    (walS.recover .sentinelFalse).1.next = .ok (1 + 1) ∧
    (walS.recover .sentinelFalse).1.commitHead = .ok 1 :=
  (c5_recover_false walS 1 [[1], [2, 2], [3, 3, 3], [4]]
    ⟨[], by decide⟩).1 (by decide)

/-- C6. Range-read correctness on a reachable state: for a valid range
(`first < next`, `count ≤ next − first`), `getRange` returns `count`
records where record `i` carries index `first + i`, offset `O(first+i)`
and length `|p₍f₊ᵢ₎|  = O(first+i+1) − O(first+i)`; the stream emitted by
`readRange` is exactly the payloads `p_first … p₍f₊c₋₁₎` in LSN order and
ends after exactly `count` items; an omitted `count` defaults to
`next − first`. -/
theorem c6_readRange (wal : WriteAheadLog) (c : Int) (es : List Bytes)
    (hM : Models wal c es) (first count : Nat)
    (hf : first < es.length) (hfc : first + count ≤ es.length) :
    wal.index.getRange (first : Int) (count : Int)
      = .ok ((List.range count).map (fun i =>
          ⟨((first + i : Nat) : Int), ((offsetAt es (first + i) : Nat) : Int),
           (((es.getD (first + i) []).length : Nat) : Int)⟩)) ∧
    wal.readRange (first : Int) (some (count : Int))
      = .ok ((es.drop first).take count) ∧
    ((es.drop first).take count).length = count ∧
    wal.readRange (first : Int) none = .ok (es.drop first) := by
  obtain ⟨junk, hJ⟩ := hM
  refine ⟨getRange_models junk wal c es hJ first count hf hfc,
    readRange_models junk wal c es hJ first count hf hfc, ?_,
    readRange_default junk wal c es hJ first hf⟩
  rw [List.length_take, List.length_drop]
  omega

/-- Witness for C6 on the two-entry state `walB`, reading the full range
from LSN 0. -/
theorem c6_witness :
    walB.index.getRange ((0 : Nat) : Int) ((2 : Nat) : Int)
      = .ok ((List.range 2).map (fun i =>
          ⟨((0 + i : Nat) : Int),
           ((offsetAt [[7], [8, 9]] (0 + i) : Nat) : Int),
           ((([[7], [8, 9]].getD (0 + i) [] : Bytes).length : Nat) : Int)⟩)) ∧
    walB.readRange ((0 : Nat) : Int) (some ((2 : Nat) : Int))
      = .ok ((([[7], [8, 9]] : List Bytes).drop 0).take 2) ∧
    ((([[7], [8, 9]] : List Bytes).drop 0).take 2).length = 2 ∧
    walB.readRange ((0 : Nat) : Int) none
      = .ok (([[7], [8, 9]] : List Bytes).drop 0) :=
  c6_readRange walB (-1) [[7], [8, 9]] ⟨[], by decide⟩ 0 2 (by decide) (by decide)

/-- Both spec invariants hold of any state whose index file decomposes as
header, slots and stale bytes — the byte-length equality exactly when
there are no stale bytes. -/
theorem state_invariants (wal : WriteAheadLog) (c : Int) (es : List Bytes)
    (junk : Bytes)
    (h1 : wal.index.header = some (mkHeader 0 (es.length : Int) c))
    (h2 : wal.index.file.data
      = mkHeader 0 (es.length : Int) c ++ slotsAux 0 es ++ junk)
    (h3 : wal.log.data = es.flatten)
    (h6 : (es.flatten.length : Int) < 2147483648)
    (h7 : (es.length : Int) + 1 < 2147483648) :
    logSizeInv wal ∧ (junk = [] → idxLenExact wal) := by
  constructor
  · unfold logSizeInv
    rw [h1]
    simp only
    rw [read_head_nat 0 c es.length (by omega), read_base_zero]
    unfold readInt32At
    rw [h2,
      show HLEN + ((((es.length : Nat) : Int) - 0) * 4).toNat
        = 16 + 4 * es.length from by unfold HLEN; omega,
      slot_read4 ((es.length : Nat) : Int) c es junk es.length (Nat.le_refl _),
      dec_enc _ (by omega) (by have := offsetAt_le_total es es.length; omega)]
    unfold RAFile.size
    rw [h3, offsetAt_full]
  · intro hjunk
    subst hjunk
    unfold idxLenExact
    rw [h1]
    simp only
    rw [read_head_nat 0 c es.length (by omega), read_base_zero, h2]
    simp only [List.append_nil, List.length_append, mkHeader_length,
      slotsAux_length]
    unfold HLEN
    omega

/-- C7 counterexample: on the two-entry state `walB` both invariants hold,
yet after `truncate 1` (a legal truncation: `commit = −1 < 1 < next = 2`)
the index file still has its old 28-byte offset area, so its byte length
no longer equals `HLEN + (head − base + 1) * 4` — `truncate` does not
preserve the byte-length equality the claim asserts for every
state-changing operation. -/
theorem c7_counterexample :
    idxLenExact walB ∧ logSizeInv walB ∧
    (walB.commitHead = .ok (-1) ∧ walB.next = .ok 2) ∧
    ¬ idxLenExact (walB.truncate 1).1 ∧ logSizeInv (walB.truncate 1).1 :=
  ⟨by decide, by decide, ⟨by decide, by decide⟩, by decide, by decide⟩

/-- C7 (amended). `create` establishes both invariants and `write`
(and its `increment`) and `commit` preserve them; `truncate` preserves
`log.size = O(head)` but leaves the index file's byte length unchanged
instead of shrinking it, so after a truncation the length only bounds
`HLEN + (head − base + 1) * 4` from above rather than equalling it. -/
theorem c7_invariants_amended :
    (idxLenExact WriteAheadLog.create ∧ logSizeInv WriteAheadLog.create) ∧
    (∀ (wal : WriteAheadLog) (c : Int) (es : List Bytes) (p : Bytes),
      ModelsJ [] wal c es → p ≠ [] →
      ((es.flatten.length + p.length : Nat) : Int) < 2147483648 →
      (es.length : Int) + 2 < 2147483648 →
      idxLenExact (wal.write (.buffer p)).1 ∧ logSizeInv (wal.write (.buffer p)).1) ∧
    (∀ (wal : WriteAheadLog) (c : Int) (es : List Bytes) (L : Int),
      ModelsJ [] wal c es →
      idxLenExact (wal.commit L).1 ∧ logSizeInv (wal.commit L).1) ∧
    (∀ (wal : WriteAheadLog) (c : Int) (es : List Bytes) (junk : Bytes) (T : Int),
      ModelsJ junk wal c es → c < T → T < (es.length : Int) →
      logSizeInv (wal.truncate T).1 ∧
      (wal.truncate T).1.index.file.data.length = wal.index.file.data.length) := by
  refine ⟨⟨by decide, by decide⟩, ?_, ?_, ?_⟩
  · intro wal c es p hJ hp hsz hn
    have hw := (write_models [] wal c es hJ p hp hsz hn).2
    obtain ⟨g1, g2, g3, g4, g5, g6, g7⟩ := hw
    have := state_invariants (wal.write (.buffer p)).1 c (es ++ [p]) [] g1
      (by simpa using g2) g3 g6 g7
    exact ⟨this.2 rfl, this.1⟩
  · intro wal c es L hJ
    obtain ⟨h1, h2, h3, h4, h5, h6, h7⟩ := hJ
    have hJ' : ModelsJ [] wal c es := ⟨h1, h2, h3, h4, h5, h6, h7⟩
    rcases lt_trichotomy L (c + 1) with hL | hL | hL
    · rw [commit_models_idem [] wal c es hJ' L hL]
      have := state_invariants wal c es [] h1 h2 h3 h6 h7
      exact ⟨this.2 rfl, this.1⟩
    · subst hL
      rw [commit_models_exact [] wal c es hJ']
      have := state_invariants
        (⟨wal.log,
          ⟨⟨mkHeader 0 (es.length : Int) (c + 1) ++ slotsAux 0 es ++ []⟩,
            some (mkHeader 0 (es.length : Int) (c + 1))⟩⟩ : WriteAheadLog)
        (c + 1) es [] rfl rfl h3 h6 h7
      exact ⟨this.2 rfl, this.1⟩
    · rw [commit_models_outOfOrder [] wal c es hJ' L hL]
      have := state_invariants wal c es [] h1 h2 h3 h6 h7
      exact ⟨this.2 rfl, this.1⟩
  · intro wal c es junk T hJ hcT hTn
    have h4 : -1 ≤ c := hJ.2.2.2.1
    have hTcast : T = ((T.toNat : Nat) : Int) := by omega
    have hTn' : T.toNat < es.length := by omega
    have htr := truncate_models junk wal c es hJ T.toNat (by omega) hTn'
    have hres := htr.2
    rw [hTcast, htr.1]
    rw [htr.1] at hres
    obtain ⟨g1, g2, g3, g4, g5, g6, g7⟩ := hres
    constructor
    · exact (state_invariants _ c (es.take T.toNat) _ g1 g2 g3 g6 g7).1
    · rw [hJ.2.1]
      simp only [List.length_append, mkHeader_length, slotsAux_length,
        List.append_assoc]

/-- C8. `isCommitted L` resolves with `true` iff `L` is strictly below the
commit head; in particular a freshly committed LSN (`commit (c+1)`
succeeding) still reports as not committed. -/
theorem c8_isCommitted (wal : WriteAheadLog) (c : Int) (es : List Bytes)
    (hM : Models wal c es) (L : Int) :
    wal.isCommitted L = .ok (decide (L < c)) ∧
    (wal.commit (c + 1)).2 = .ok (c + 1) ∧
    (wal.commit (c + 1)).1.isCommitted (c + 1) = .ok false := by
  obtain ⟨junk, hJ⟩ := hM
  have h4 := hJ.2.2.2.1
  have h5 := hJ.2.2.2.2.1
  have h7 := hJ.2.2.2.2.2.2
  refine ⟨?_, ?_, ?_⟩
  · unfold WriteAheadLog.isCommitted LogIndexFile.isCommitted
    rw [hJ.1]
    simp only
    rw [hJ.read_commit]
  · rw [commit_models_exact junk wal c es hJ]
  · rw [commit_models_exact junk wal c es hJ]
    unfold WriteAheadLog.isCommitted LogIndexFile.isCommitted
    simp only
    rw [read_commit_small 0 (es.length : Int) (c + 1) (by omega) (by omega)]
    simp

/-- Witness for C8 on `walS` (commit head 1), checking LSN 0. -/
theorem c8_witness :
    walS.isCommitted 0 = .ok (decide ((0 : Int) < 1)) ∧
    (walS.commit (1 + 1)).2 = .ok (1 + 1) ∧
    (walS.commit (1 + 1)).1.isCommitted (1 + 1) = .ok false :=
  c8_isCommitted walS 1 [[1], [2, 2], [3, 3, 3], [4]] ⟨[], by decide⟩ 0

/-- C9. `write` requires a non-empty byte buffer: a missing or non-buffer
payload, or an empty buffer, makes the operation reject and leaves the
whole WAL state (log bytes, index file, header — hence `next`, commit head
and size) unchanged. The payload validation itself lives in the external
file abstraction and is modelled from the spec (see `ranWrite`). -/
theorem c9_write_validation (wal : WriteAheadLog) :
    ((wal.write .notABuffer).1 = wal ∧
      exceptOk (wal.write .notABuffer).2 = false) ∧
    ((wal.write (.buffer [])).1 = wal ∧
      exceptOk (wal.write (.buffer [])).2 = false) := by
  unfold WriteAheadLog.write
  rcases hh : wal.index.header with _ | hdr
  · exact ⟨⟨rfl, rfl⟩, ⟨rfl, rfl⟩⟩
  · simp only
    unfold LogIndexFile.offset
    rw [hh]
    simp [ranWrite, exceptOk]

/-- C10. After `close()` the cached header is cleared and every
header-dependent operation on the closed index fails with the assertion
`index must be open`. -/
theorem c10_close_invalidates (idx : LogIndexFile) (L o count : Int) :
    (idx.close).header = none ∧
    (idx.close).marker = .error (.assertion "index must be open") ∧
    (idx.close).baseIndex = .error (.assertion "index must be open") ∧
    (idx.close).head = .error (.assertion "index must be open") ∧
    (idx.close).commitHead = .error (.assertion "index must be open") ∧
    (idx.close).isCommitted L = .error (.assertion "index must be open") ∧
    (idx.close).commit L = (idx.close, .error (.assertion "index must be open")) ∧
    (idx.close).offset L = .error (.assertion "index must be open") ∧
    (idx.close).get L = .error (.assertion "index must be open") ∧
    (idx.close).getRange L count = .error (.assertion "index must be open") ∧
    (idx.close).increment o = (idx.close, .error (.assertion "index must be open")) :=
  ⟨rfl, rfl, rfl, rfl, rfl, rfl, rfl, rfl, rfl, rfl, rfl⟩

/-- Witness for the amended C7: a write on the one-entry state `walA`
preserves both invariants. -/
theorem c7_witness :
    idxLenExact (walA.write (.buffer [9, 9])).1 ∧
    logSizeInv (walA.write (.buffer [9, 9])).1 :=
  c7_invariants_amended.2.1 walA (-1) [[7]] [9, 9] (by decide) (by decide)
    (by decide) (by decide)
